import Mathlib

/-!
Verification of the branch-command core of `jj` (`src/commands/branch.rs`).

The data model (`RefTarget`, branch view) and the operations
(`is_fast_forward`, create / set / delete / forget / list) are embedded
shallowly.  External collaborators (the ancestry index, the transaction
layer's view mutators and glob matching, all living outside `src/`) are
modelled from the spec and clearly marked as such.
-/

/-- Commit identifiers are opaque values compared by equality; we use `Nat`. -/
abbrev CommitId := Nat

abbrev BranchName := String

abbrev RemoteName := String

/-- `RefTarget` from `jujutsu_lib::op_store`, as consumed by `branch.rs`:
either a single commit or a conflict with `removes`/`adds` sets. -/
inductive RefTarget where
  | Normal (id : CommitId)
  | Conflict (removes : List CommitId) (adds : List CommitId)
  deriving DecidableEq, Repr

/-- Modelled from the spec: a `Single` target is treated as a one-element
`adds` set; a `Conflict` contributes its `adds` list.  This is
`RefTarget::adds()` from the library crate. -/
def RefTarget.adds : RefTarget → List CommitId
  | .Normal id => [id]
  | .Conflict _ adds => adds

/-- Modelled from the spec: a Branch Record holds an optional local target
plus a mapping from remote name to remote target. -/
structure BranchTarget where
  local_target : Option RefTarget
  remote_targets : List (RemoteName × RefTarget)
  deriving DecidableEq, Repr

/-- Modelled from the spec: the Branch View, a mapping from branch name to
Branch Record (represented as an association list). -/
structure View where
  branches : List (BranchName × BranchTarget)
  deriving DecidableEq, Repr

/-- Look up the full Branch Record of a name. -/
def View.lookupRecord (v : View) (name : BranchName) : Option BranchTarget :=
  v.branches.lookup name

/-- `View::get_local_branch`: the local target of a name, if any. -/
def View.get_local_branch (v : View) (name : BranchName) : Option RefTarget :=
  (v.lookupRecord name).bind (·.local_target)

/-- The remote target a view stores for `(name, remote)`, if any. -/
def View.get_remote_target (v : View) (name : BranchName) (remote : RemoteName) :
    Option RefTarget :=
  (v.lookupRecord name).bind (fun bt => bt.remote_targets.lookup remote)

/-- The repository state `branch.rs` reads: the view plus the ancestry
index, the latter abstracted to its `is_ancestor` query (the index lives
outside `src/`). -/
structure Repo where
  view : View
  isAncestor : CommitId → CommitId → Bool

/-- `is_fast_forward` from `src/commands/branch.rs` (lines 315-324): if the
branch has a local target, the update is a fast-forward when **any** element
of its `adds` set is an ancestor of the proposed commit; a branch with no
local target always fast-forwards. -/
def is_fast_forward (repo : Repo) (branch_name : BranchName)
    (new_target_id : CommitId) : Bool :=
  match repo.view.get_local_branch branch_name with
  | some current_target =>
      current_target.adds.any (fun add => repo.isAncestor add new_target_id)
  | none => true

/-- The typed failures of the branch operations (§7 of the spec names them
`NameCollision`, `UnknownBranch`, `NonFastForward`; the code produces them
as `user_error` values). -/
inductive CommandError where
  | NameCollision (name : BranchName)
  | UnknownBranch (name : BranchName)
  | NonFastForward
  deriving DecidableEq, Repr

/-- How `set_local_branch` rewrites one view entry: entries of the named
branch get their local target replaced, others are untouched. -/
def setLocalEntry (name : BranchName) (target : RefTarget)
    (p : BranchName × BranchTarget) : BranchName × BranchTarget :=
  if p.1 == name then (p.1, ⟨some target, p.2.remote_targets⟩) else p

/-- Modelled from the spec: the transaction collaborator's
`set_local_branch(name, target)` — sets the local target of `name`,
creating the Branch Record if the name is new. -/
def View.set_local_branch (v : View) (name : BranchName) (target : RefTarget) : View :=
  if v.branches.any (fun p => p.1 == name) then
    ⟨v.branches.map (setLocalEntry name target)⟩
  else
    ⟨v.branches ++ [(name, ⟨some target, []⟩)]⟩

/-- How `remove_local_branch` rewrites one view entry: the named branch's
local target is cleared (and the record pruned if it has no remote
targets either); other entries are untouched. -/
def removeLocalEntry (name : BranchName) (p : BranchName × BranchTarget) :
    Option (BranchName × BranchTarget) :=
  if p.1 == name then
    if p.2.remote_targets.isEmpty then none
    else some (p.1, ⟨none, p.2.remote_targets⟩)
  else some p

/-- Modelled from the spec: the transaction collaborator's
`remove_local_branch(name)` — clears the local target only, leaving remote
targets untouched; a record left with neither local nor remote targets is
pruned from the view. -/
def View.remove_local_branch (v : View) (name : BranchName) : View :=
  ⟨v.branches.filterMap (removeLocalEntry name)⟩

/-- Modelled from the spec: the transaction collaborator's
`remove_branch(name)` — discards the name's Branch Record entirely,
local and all remote targets. -/
def View.remove_branch (v : View) (name : BranchName) : View :=
  ⟨v.branches.filter (fun p => p.1 != name)⟩

/-- `validate_branch_names_exist` from `branch.rs` (lines 95-105): fails on
the first listed name that has no local target. -/
def validate_branch_names_exist (view : View) (names : List BranchName) :
    Except CommandError Unit :=
  match names.find? (fun n => (view.get_local_branch n).isNone) with
  | some n => .error (.UnknownBranch n)
  | none => .ok ()

/-- `BranchSubcommand::Create` (lines 123-157), after revision resolution:
each name is checked against the pre-operation view (error on the first
name that already has a local target), then every name's local target is
set to `Normal(target_commit)` in one transaction. -/
def cmd_create (view : View) (names : List BranchName) (target_commit : CommitId) :
    Except CommandError View :=
  match names.find? (fun n => (view.get_local_branch n).isSome) with
  | some n => .error (.NameCollision n)
  | none =>
      .ok (names.foldl (fun v n => v.set_local_branch n (.Normal target_commit)) view)

/-- `BranchSubcommand::Set` (lines 159-200), after revision resolution:
unless `allow_backwards` is set, every named branch must pass
`is_fast_forward` before any transaction is started; then every name's
local target is set to `Normal(target_commit)`. -/
def cmd_set (repo : Repo) (allow_backwards : Bool) (branch_names : List BranchName)
    (target_commit : CommitId) : Except CommandError View :=
  if !allow_backwards &&
      !(branch_names.all (fun branch_name =>
          is_fast_forward repo branch_name target_commit)) then
    .error .NonFastForward
  else
    .ok (branch_names.foldl
      (fun v n => v.set_local_branch n (.Normal target_commit)) repo.view)

/-- `BranchSubcommand::Delete` (lines 202-210): validates all names have a
local target, then clears each one's local target. -/
def cmd_delete (view : View) (names : List BranchName) : Except CommandError View :=
  match validate_branch_names_exist view names with
  | .error e => .error e
  | .ok _ => .ok (names.foldl (fun v n => v.remove_local_branch n) view)

/-- Modelled from the spec: shell-style glob matching (the `glob` crate's
`Pattern::matches`, outside `src/`): `*` matches any character sequence,
`?` matches exactly one character, any other pattern character matches
itself.  Character classes are omitted (unused by the spec). -/
def globMatch : List Char → List Char → Bool
  | [], s => s.isEmpty
  | '*' :: ps, [] => globMatch ps []
  | '*' :: ps, c :: cs => globMatch ps (c :: cs) || globMatch ('*' :: ps) cs
  | _ :: _, [] => false
  | '?' :: ps, _ :: cs => globMatch ps cs
  | p :: ps, c :: cs => (p == c) && globMatch ps cs
termination_by ps s => (ps.length, s.length)

/-- `find_globs` from `branch.rs` (lines 107-120): the names of all
branches in the view (local or remote-only alike) matched by at least one
glob pattern. -/
def find_globs (view : View) (globs : List String) : List BranchName :=
  (view.branches.filter
    (fun p => globs.any (fun glob => globMatch glob.toList p.1.toList))).map (·.1)

/-- `BranchSubcommand::Forget` (lines 212-222): validates the explicit
names exist, resolves the globs over all branches, then removes each name
in the (deduplicated) union entirely.  The code collects the union into a
`BTreeSet`; its sorted iteration order does not affect the folded result. -/
def cmd_forget (view : View) (names : List BranchName) (globs : List String) :
    Except CommandError View :=
  match validate_branch_names_exist view names with
  | .error e => .error e
  | .ok _ =>
      let all := (names ++ find_globs view globs).dedup
      .ok (all.foldl (fun v n => v.remove_branch n) view)

/-! ### The List operation -/

/-- The divergence annotation printed on a remote branch line. -/
inductive AheadBehind where
  | nothing
  | ahead (n : Nat)
  | behind (n : Nat)
  | aheadBehind (a b : Nat)
  deriving DecidableEq, Repr

/-- One unit of observable behaviour of the List operation: an output line,
or a reachability query `index.walk_revs(wanted, unwanted).count()` issued
to the ancestry index. -/
inductive ListEvent where
  | localLine (name : BranchName) (target : Option RefTarget)
  | remoteLine (name : BranchName) (remote : RemoteName) (info : AheadBehind)
      (target : RefTarget)
  | query (wanted unwanted : List CommitId)
  deriving DecidableEq, Repr

/-- The state the List operation reads: the view plus the ancestry index's
walk-revs-count query (number of commits reachable from `wanted` but not
from `unwanted`; the index lives outside `src/`). -/
structure ListRepo where
  view : View
  walkRevsCount : List CommitId → List CommitId → Nat

/-- The divergence annotation computed in `list_branches` (lines 290-306):
`remote_ahead_count` counts commits reachable from the remote target's
`adds` but not from the local target's, `local_ahead_count` the converse;
only nonzero sides are printed. -/
def remoteInfoCalc (walk : List CommitId → List CommitId → Nat)
    (local_target remote_target : RefTarget) : AheadBehind :=
  let remote_ahead_count := walk remote_target.adds local_target.adds
  let local_ahead_count := walk local_target.adds remote_target.adds
  if remote_ahead_count ≠ 0 ∧ local_ahead_count = 0 then .ahead remote_ahead_count
  else if remote_ahead_count = 0 ∧ local_ahead_count ≠ 0 then .behind local_ahead_count
  else if remote_ahead_count ≠ 0 ∧ local_ahead_count ≠ 0 then
    .aheadBehind remote_ahead_count local_ahead_count
  else .nothing

/-- The events produced for one `(remote, remote_target)` entry of a branch
in `list_branches` (lines 279-309): nothing at all if the remote target
equals the local target; otherwise the remote line, preceded by the two
reachability queries when a local target exists. -/
def remoteEvents (walk : List CommitId → List CommitId → Nat) (name : BranchName)
    (local_target : Option RefTarget) (remote : RemoteName)
    (remote_target : RefTarget) : List ListEvent :=
  if some remote_target = local_target then []
  else
    match local_target with
    | some lt =>
        [.query remote_target.adds lt.adds, .query lt.adds remote_target.adds,
         .remoteLine name remote (remoteInfoCalc walk lt remote_target) remote_target]
    | none => [.remoteLine name remote .nothing remote_target]

/-- The events produced for one branch in `list_branches` (lines 275-310):
the local line, then the events of each remote entry in remote-name order. -/
def branchEvents (walk : List CommitId → List CommitId → Nat) (name : BranchName)
    (bt : BranchTarget) : List ListEvent :=
  .localLine name bt.local_target ::
    (bt.remote_targets.mergeSort (fun p q => p.1 ≤ q.1)).flatMap
      (fun p => remoteEvents walk name bt.local_target p.1 p.2)

/-- `list_branches` from `branch.rs` (lines 232-313), abstracted to its
observable output lines and index queries. -/
def list_branches (repo : ListRepo) : List ListEvent :=
  repo.view.branches.flatMap (fun p => branchEvents repo.walkRevsCount p.1 p.2)

/-! ### Concrete instances used by witnesses and counterexamples -/

/-- A repository whose branch `b` has the conflicted local target
`Conflict(removes = [], adds = [1, 2])`, and whose ancestry index makes
`1` (but not `2`) an ancestor of `3`. -/
def conflictRepo : Repo :=
  ⟨⟨[("b", ⟨some (.Conflict [] [1, 2]), []⟩)]⟩, fun a b => a == 1 && b == 3⟩

/-- A repository over the total-order ancestry index `a ≤ b`, with a single
branch `main` at commit `3`. -/
def leRepo : Repo := ⟨⟨[("main", ⟨some (.Normal 3), []⟩)]⟩, Nat.ble⟩

/-- A repository where `b1` (at `1`) would fast-forward to commit `5` but
`b2` (at `9`) would not. -/
def setRepo : Repo :=
  ⟨⟨[("b1", ⟨some (.Normal 1), []⟩), ("b2", ⟨some (.Normal 9), []⟩)]⟩, Nat.ble⟩

/-- A repository with no branches at all. -/
def emptyRepo : Repo := ⟨⟨[]⟩, Nat.ble⟩

/-- A view with a normal branch `x` and a remote-only branch `y`. -/
def delView : View :=
  ⟨[("x", ⟨some (.Normal 1), [("origin", .Normal 2)]⟩),
    ("y", ⟨none, [("origin", .Normal 3)]⟩)]⟩

/-- The spec's Forget example: branches `feature-a`, `feature-b`, `main`. -/
def featureView : View :=
  ⟨[("feature-a", ⟨some (.Normal 1), []⟩), ("feature-b", ⟨some (.Normal 2), []⟩),
    ("main", ⟨some (.Normal 3), []⟩)]⟩

/-- A view whose only branch `ro` exists purely on the remote side. -/
def remoteOnlyView : View := ⟨[("ro", ⟨none, [("origin", .Normal 7)]⟩)]⟩

/-- A list-repo where local `b` is at `1`, remote `origin` at `2`, and the
index reports exactly one commit reachable from `2` but not from `1`. -/
def divergeRepo : ListRepo :=
  ⟨⟨[("b", ⟨some (.Normal 1), [("origin", .Normal 2)]⟩)]⟩,
   fun w u => if w = [2] ∧ u = [1] then 1 else 0⟩

/-- A list-repo for the C8 witness: the remote target of `b@origin` equals
the local target. -/
def equalRemoteRepo : ListRepo :=
  ⟨⟨[("b", ⟨some (.Normal 1), [("origin", .Normal 1)]⟩)]⟩, fun _ _ => 0⟩

/-! ### Association-list lemmas for the Branch View -/

theorem lookup_append_or (l₁ l₂ : List (BranchName × BranchTarget)) (n : BranchName) :
    (l₁ ++ l₂).lookup n = (l₁.lookup n).or (l₂.lookup n) := by
  induction l₁ with
  | nil => simp [List.lookup]
  | cons p l ih =>
    obtain ⟨k, bt⟩ := p
    by_cases hk : n = k
    · have hb : (n == k) = true := by simp [hk]
      simp [List.lookup, hb]
    · have hb : (n == k) = false := by simp [hk]
      simp [List.lookup, hb, ih]

theorem lookup_eq_none_of_not_any (l : List (BranchName × BranchTarget)) (n : BranchName)
    (h : l.any (fun p => p.1 == n) = false) : l.lookup n = none := by
  induction l with
  | nil => simp [List.lookup]
  | cons p l ih =>
    obtain ⟨k, bt⟩ := p
    simp only [List.any_cons, Bool.or_eq_false_iff] at h
    have hb : (n == k) = false := by
      rcases h with ⟨h1, _⟩
      simp only [beq_eq_false_iff_ne] at h1 ⊢
      exact fun he => h1 he.symm
    simp [List.lookup, hb, ih h.2]

theorem setLocalEntry_pos (name : BranchName) (target : RefTarget)
    (p : BranchName × BranchTarget) (h : (p.1 == name) = true) :
    setLocalEntry name target p = (p.1, ⟨some target, p.2.remote_targets⟩) := by
  simp [setLocalEntry, h]

theorem setLocalEntry_neg (name : BranchName) (target : RefTarget)
    (p : BranchName × BranchTarget) (h : (p.1 == name) = false) :
    setLocalEntry name target p = p := by
  simp [setLocalEntry, h]

theorem lookup_map_setLocalEntry_self (l : List (BranchName × BranchTarget))
    (n : BranchName) (t : RefTarget) (h : l.any (fun p => p.1 == n) = true) :
    ((l.map (setLocalEntry n t)).lookup n).bind (fun bt => bt.local_target) = some t := by
  induction l with
  | nil => simp at h
  | cons p l ih =>
    obtain ⟨k, bt⟩ := p
    by_cases hk : k = n
    · have hb : (k == n) = true := by simp [hk]
      have hb' : (n == k) = true := by simp [hk]
      rw [List.map_cons, setLocalEntry_pos n t (k, bt) hb]
      simp [List.lookup, hb']
    · have hb : (k == n) = false := by simp [hk]
      have hb' : (n == k) = false := by
        simp only [beq_eq_false_iff_ne]
        exact fun he => hk he.symm
      have h' : l.any (fun p => p.1 == n) = true := by
        simp only [List.any_cons, hb, Bool.false_or] at h
        exact h
      rw [List.map_cons, setLocalEntry_neg n t (k, bt) hb]
      simp [List.lookup, hb', ih h']

theorem lookup_map_setLocalEntry_other (l : List (BranchName × BranchTarget))
    (n m : BranchName) (t : RefTarget) (hm : m ≠ n) :
    (l.map (setLocalEntry n t)).lookup m = l.lookup m := by
  induction l with
  | nil => simp
  | cons p l ih =>
    obtain ⟨k, bt⟩ := p
    by_cases hk : k = n
    · have hb : (k == n) = true := by simp [hk]
      have hmk : (m == k) = false := by
        simp only [beq_eq_false_iff_ne]
        intro he; exact hm (he.trans hk)
      rw [List.map_cons, setLocalEntry_pos n t (k, bt) hb]
      simp [List.lookup, hmk, ih]
    · have hb : (k == n) = false := by simp [hk]
      rw [List.map_cons, setLocalEntry_neg n t (k, bt) hb]
      by_cases hmk : m = k
      · have hb2 : (m == k) = true := by simp [hmk]
        simp [List.lookup, hb2]
      · have hb2 : (m == k) = false := by simp [hmk]
        simp [List.lookup, hb2, ih]

/-- Pointwise effect of `set_local_branch` on local targets: the named
branch now points at the target, all other names are unchanged. -/
theorem get_local_branch_set (v : View) (n m : BranchName) (t : RefTarget) :
    (v.set_local_branch n t).get_local_branch m =
      if m = n then some t else v.get_local_branch m := by
  unfold View.set_local_branch View.get_local_branch View.lookupRecord
  by_cases hany : v.branches.any (fun p => p.1 == n) = true
  · simp only [hany, if_true]
    by_cases hm : m = n
    · subst hm
      simpa using lookup_map_setLocalEntry_self v.branches m t hany
    · simp [lookup_map_setLocalEntry_other v.branches n m t hm, hm]
  · simp only [Bool.not_eq_true] at hany
    simp only [hany, Bool.false_eq_true, if_false]
    rw [lookup_append_or]
    by_cases hm : m = n
    · subst hm
      rw [lookup_eq_none_of_not_any v.branches m hany]
      have hb : (m == m) = true := by simp
      simp [List.lookup, hb]
    · have hb : (m == n) = false := by simp [hm]
      simp [List.lookup, hb, Option.or_none, hm]

theorem removeLocalEntry_drop (name : BranchName) (p : BranchName × BranchTarget)
    (h : (p.1 == name) = true) (he : p.2.remote_targets.isEmpty = true) :
    removeLocalEntry name p = none := by
  simp [removeLocalEntry, h, he]

theorem removeLocalEntry_keep (name : BranchName) (p : BranchName × BranchTarget)
    (h : (p.1 == name) = true) (he : p.2.remote_targets.isEmpty = false) :
    removeLocalEntry name p = some (p.1, ⟨none, p.2.remote_targets⟩) := by
  simp [removeLocalEntry, h, he]

theorem removeLocalEntry_skip (name : BranchName) (p : BranchName × BranchTarget)
    (h : (p.1 == name) = false) : removeLocalEntry name p = some p := by
  simp [removeLocalEntry, h]

theorem lookup_removeLocal_self (l : List (BranchName × BranchTarget)) (n : BranchName) :
    ((l.filterMap (removeLocalEntry n)).lookup n).bind (fun bt => bt.local_target) = none := by
  induction l with
  | nil => simp [List.lookup]
  | cons p l ih =>
    obtain ⟨k, bt⟩ := p
    by_cases hk : k = n
    · have hb : (k == n) = true := by simp [hk]
      have hb' : (n == k) = true := by simp [hk]
      cases he : bt.remote_targets.isEmpty with
      | true =>
        rw [List.filterMap_cons, removeLocalEntry_drop n (k, bt) hb he]
        exact ih
      | false =>
        rw [List.filterMap_cons, removeLocalEntry_keep n (k, bt) hb he]
        simp [List.lookup, hb']
    · have hb : (k == n) = false := by simp [hk]
      have hb' : (n == k) = false := by
        simp only [beq_eq_false_iff_ne]
        exact fun hc => hk hc.symm
      rw [List.filterMap_cons, removeLocalEntry_skip n (k, bt) hb]
      simp [List.lookup, hb', ih]

theorem lookup_removeLocal_other (l : List (BranchName × BranchTarget))
    (n m : BranchName) (hm : m ≠ n) :
    (l.filterMap (removeLocalEntry n)).lookup m = l.lookup m := by
  induction l with
  | nil => simp
  | cons p l ih =>
    obtain ⟨k, bt⟩ := p
    by_cases hk : k = n
    · have hb : (k == n) = true := by simp [hk]
      have hmk : (m == k) = false := by
        simp only [beq_eq_false_iff_ne]
        intro hc; exact hm (hc.trans hk)
      cases he : bt.remote_targets.isEmpty with
      | true =>
        rw [List.filterMap_cons, removeLocalEntry_drop n (k, bt) hb he]
        simp [List.lookup, hmk, ih]
      | false =>
        rw [List.filterMap_cons, removeLocalEntry_keep n (k, bt) hb he]
        simp [List.lookup, hmk, ih]
    · have hb : (k == n) = false := by simp [hk]
      rw [List.filterMap_cons, removeLocalEntry_skip n (k, bt) hb]
      by_cases hmk : m = k
      · have hb2 : (m == k) = true := by simp [hmk]
        simp [List.lookup, hb2]
      · have hb2 : (m == k) = false := by simp [hmk]
        simp [List.lookup, hb2, ih]

theorem lookup_removeLocal_not_mem (l : List (BranchName × BranchTarget))
    (n m : BranchName) (hm : m ∉ l.map Prod.fst) :
    (l.filterMap (removeLocalEntry n)).lookup m = none := by
  induction l with
  | nil => simp [List.lookup]
  | cons p l ih =>
    obtain ⟨k, bt⟩ := p
    simp only [List.map_cons, List.mem_cons, not_or] at hm
    have hmk : (m == k) = false := by simp [hm.1]
    by_cases hk : k = n
    · have hb : (k == n) = true := by simp [hk]
      cases he : bt.remote_targets.isEmpty with
      | true =>
        rw [List.filterMap_cons, removeLocalEntry_drop n (k, bt) hb he]
        exact ih hm.2
      | false =>
        rw [List.filterMap_cons, removeLocalEntry_keep n (k, bt) hb he]
        simp [List.lookup, hmk, ih hm.2]
    · have hb : (k == n) = false := by simp [hk]
      rw [List.filterMap_cons, removeLocalEntry_skip n (k, bt) hb]
      simp [List.lookup, hmk, ih hm.2]

theorem lookup_removeLocal_remote (l : List (BranchName × BranchTarget))
    (n m : BranchName) (r : RemoteName) (hnd : (l.map Prod.fst).Nodup) :
    ((l.filterMap (removeLocalEntry n)).lookup m).bind
        (fun bt => bt.remote_targets.lookup r) =
      (l.lookup m).bind (fun bt => bt.remote_targets.lookup r) := by
  induction l with
  | nil => simp [List.lookup]
  | cons p l ih =>
    obtain ⟨k, bt⟩ := p
    simp only [List.map_cons, List.nodup_cons] at hnd
    by_cases hmk : m = k
    · have hb2 : (m == k) = true := by simp [hmk]
      by_cases hk : k = n
      · have hb : (k == n) = true := by simp [hk]
        cases he : bt.remote_targets.isEmpty with
        | true =>
          rw [List.filterMap_cons, removeLocalEntry_drop n (k, bt) hb he]
          rw [lookup_removeLocal_not_mem l n m (hmk ▸ hnd.1)]
          have hre : bt.remote_targets = [] := by
            simpa [List.isEmpty_iff] using he
          simp [List.lookup, hb2, hre]
        | false =>
          rw [List.filterMap_cons, removeLocalEntry_keep n (k, bt) hb he]
          simp [List.lookup, hb2]
      · have hb : (k == n) = false := by simp [hk]
        rw [List.filterMap_cons, removeLocalEntry_skip n (k, bt) hb]
        simp [List.lookup, hb2]
    · have hb2 : (m == k) = false := by simp [hmk]
      by_cases hk : k = n
      · have hb : (k == n) = true := by simp [hk]
        cases he : bt.remote_targets.isEmpty with
        | true =>
          rw [List.filterMap_cons, removeLocalEntry_drop n (k, bt) hb he]
          simp [List.lookup, hb2, ih hnd.2]
        | false =>
          rw [List.filterMap_cons, removeLocalEntry_keep n (k, bt) hb he]
          simp [List.lookup, hb2, ih hnd.2]
      · have hb : (k == n) = false := by simp [hk]
        rw [List.filterMap_cons, removeLocalEntry_skip n (k, bt) hb]
        simp [List.lookup, hb2, ih hnd.2]

/-- Pointwise effect of `remove_local_branch` on local targets. -/
theorem get_local_branch_remove_local (v : View) (n m : BranchName) :
    (v.remove_local_branch n).get_local_branch m =
      if m = n then none else v.get_local_branch m := by
  unfold View.remove_local_branch View.get_local_branch View.lookupRecord
  by_cases hm : m = n
  · subst hm
    simp [lookup_removeLocal_self v.branches m]
  · simp [lookup_removeLocal_other v.branches n m hm, hm]

/-- `remove_local_branch` leaves every remote target unchanged (for a view
whose branch names are unique, as the spec's Branch View invariant
requires). -/
theorem get_remote_target_remove_local (v : View) (n : BranchName)
    (hnd : (v.branches.map Prod.fst).Nodup) (m : BranchName) (r : RemoteName) :
    (v.remove_local_branch n).get_remote_target m r = v.get_remote_target m r := by
  unfold View.remove_local_branch View.get_remote_target View.lookupRecord
  exact lookup_removeLocal_remote v.branches n m r hnd

/-- The keys of the filter-mapped branch list form a sublist of the
original keys, so uniqueness of branch names is preserved. -/
theorem nodup_keys_remove_local (v : View) (n : BranchName)
    (hnd : (v.branches.map Prod.fst).Nodup) :
    ((v.remove_local_branch n).branches.map Prod.fst).Nodup := by
  refine List.Nodup.sublist ?_ hnd
  unfold View.remove_local_branch
  simp only
  induction v.branches with
  | nil => simp
  | cons p l ih =>
    obtain ⟨k, bt⟩ := p
    by_cases hk : k = n
    · have hb : (k == n) = true := by simp [hk]
      cases he : bt.remote_targets.isEmpty with
      | true =>
        rw [List.filterMap_cons, removeLocalEntry_drop n (k, bt) hb he]
        exact List.Sublist.cons _ ih
      | false =>
        rw [List.filterMap_cons, removeLocalEntry_keep n (k, bt) hb he]
        simpa using List.Sublist.cons₂ k ih
    · have hb : (k == n) = false := by simp [hk]
      rw [List.filterMap_cons, removeLocalEntry_skip n (k, bt) hb]
      simpa using List.Sublist.cons₂ k ih

/-- Pointwise effect of `remove_branch`: the named branch's whole record is
gone, every other record is untouched. -/
theorem lookupRecord_remove_branch (v : View) (n m : BranchName) :
    (v.remove_branch n).lookupRecord m =
      if m = n then none else v.lookupRecord m := by
  unfold View.remove_branch View.lookupRecord
  simp only
  induction v.branches with
  | nil => simp [List.lookup]
  | cons p l ih =>
    obtain ⟨k, bt⟩ := p
    by_cases hk : k = n
    · have hb : (k != n) = false := by simp [hk]
      have hmk : m = k → m = n := fun h => h.trans hk
      rw [List.filter_cons]
      simp only [hb, Bool.false_eq_true, if_false]
      by_cases hm : m = n
      · simpa [hm] using ih
      · have hb2 : (m == k) = false := by
          simp only [beq_eq_false_iff_ne]
          exact fun hc => hm (hmk hc)
        simpa [List.lookup, hb2, hm] using ih
    · have hb : (k != n) = true := by simp [hk]
      rw [List.filter_cons]
      simp only [hb, if_true]
      by_cases hmk : m = k
      · have hb2 : (m == k) = true := by simp [hmk]
        have hm : ¬ (m = n) := fun hc => hk (hmk.symm.trans hc)
        simp [List.lookup, hb2, hm]
      · have hb2 : (m == k) = false := by simp [hmk]
        simp only [List.lookup, hb2]
        exact ih

/-! ### Effect of the command-level folds -/

theorem get_local_branch_foldl_set (names : List BranchName) (v : View)
    (t : RefTarget) (m : BranchName) :
    (names.foldl (fun v n => v.set_local_branch n t) v).get_local_branch m =
      if m ∈ names then some t else v.get_local_branch m := by
  induction names generalizing v with
  | nil => simp
  | cons n ns ih =>
    rw [List.foldl_cons, ih]
    by_cases hns : m ∈ ns
    · simp [hns]
    · rw [get_local_branch_set]
      by_cases hn : m = n
      · simp [hn, hns]
      · simp [hn, hns]

theorem get_local_branch_foldl_remove_local (names : List BranchName) (v : View)
    (m : BranchName) :
    (names.foldl (fun v n => v.remove_local_branch n) v).get_local_branch m =
      if m ∈ names then none else v.get_local_branch m := by
  induction names generalizing v with
  | nil => simp
  | cons n ns ih =>
    rw [List.foldl_cons, ih]
    by_cases hns : m ∈ ns
    · simp [hns]
    · rw [get_local_branch_remove_local]
      by_cases hn : m = n
      · simp [hn, hns]
      · simp [hn, hns]

theorem get_remote_target_foldl_remove_local (names : List BranchName) (v : View)
    (hnd : (v.branches.map Prod.fst).Nodup) (m : BranchName) (r : RemoteName) :
    (names.foldl (fun v n => v.remove_local_branch n) v).get_remote_target m r =
      v.get_remote_target m r := by
  induction names generalizing v with
  | nil => simp
  | cons n ns ih =>
    rw [List.foldl_cons, ih (v.remove_local_branch n) (nodup_keys_remove_local v n hnd)]
    exact get_remote_target_remove_local v n hnd m r

theorem lookupRecord_foldl_remove_branch (names : List BranchName) (v : View)
    (m : BranchName) :
    (names.foldl (fun v n => v.remove_branch n) v).lookupRecord m =
      if m ∈ names then none else v.lookupRecord m := by
  induction names generalizing v with
  | nil => simp
  | cons n ns ih =>
    rw [List.foldl_cons, ih]
    by_cases hns : m ∈ ns
    · simp [hns]
    · rw [lookupRecord_remove_branch]
      by_cases hn : m = n
      · simp [hn, hns]
      · simp [hn, hns]

theorem remoteInfoCalc_spec (walk : List CommitId → List CommitId → Nat)
    (lt rt : RefTarget) :
    (∀ k, remoteInfoCalc walk lt rt = .ahead k →
        k = walk rt.adds lt.adds ∧ k ≠ 0 ∧ walk lt.adds rt.adds = 0) ∧
    (∀ k, remoteInfoCalc walk lt rt = .behind k →
        k = walk lt.adds rt.adds ∧ k ≠ 0 ∧ walk rt.adds lt.adds = 0) ∧
    (∀ a b, remoteInfoCalc walk lt rt = .aheadBehind a b →
        a = walk rt.adds lt.adds ∧ a ≠ 0 ∧ b = walk lt.adds rt.adds ∧ b ≠ 0) ∧
    (remoteInfoCalc walk lt rt = .nothing →
        walk rt.adds lt.adds = 0 ∧ walk lt.adds rt.adds = 0) := by
  unfold remoteInfoCalc
  by_cases hr : walk rt.adds lt.adds = 0 <;> by_cases hl : walk lt.adds rt.adds = 0 <;>
    simp [hr, hl]

theorem remoteLine_mem_remoteEvents (walk : List CommitId → List CommitId → Nat)
    (name : BranchName) (lt : Option RefTarget) (remote : RemoteName) (rt : RefTarget)
    (n' : BranchName) (r' : RemoteName) (info : AheadBehind) (t : RefTarget)
    (h : ListEvent.remoteLine n' r' info t ∈ remoteEvents walk name lt remote rt) :
    n' = name ∧ r' = remote ∧ t = rt ∧ some rt ≠ lt ∧
      ((lt = none ∧ info = .nothing) ∨
       (∃ l0, lt = some l0 ∧ info = remoteInfoCalc walk l0 rt)) := by
  unfold remoteEvents at h
  by_cases he : some rt = lt
  · simp [he] at h
  · rw [if_neg he] at h
    cases lt with
    | some l0 =>
      simp only [List.mem_cons, List.not_mem_nil, or_false] at h
      rcases h with h | h | h
      · exact absurd h (by simp)
      · exact absurd h (by simp)
      · obtain ⟨h1, h2, h3, h4⟩ := ListEvent.remoteLine.inj h
        exact ⟨h1, h2, h4, he, Or.inr ⟨l0, rfl, h3⟩⟩
    | none =>
      simp only [List.mem_cons, List.not_mem_nil, or_false] at h
      obtain ⟨h1, h2, h3, h4⟩ := ListEvent.remoteLine.inj h
      exact ⟨h1, h2, h4, he, Or.inl ⟨rfl, h3⟩⟩

theorem assoc_key_unique {α β : Type} (l : List (α × β))
    (hnd : (l.map Prod.fst).Nodup) (a : α) (b1 b2 : β)
    (h1 : (a, b1) ∈ l) (h2 : (a, b2) ∈ l) : b1 = b2 := by
  induction l with
  | nil => simp at h1
  | cons p l ih =>
    obtain ⟨k, c⟩ := p
    simp only [List.map_cons, List.nodup_cons] at hnd
    rcases List.mem_cons.mp h1 with h1h | h1t <;>
      rcases List.mem_cons.mp h2 with h2h | h2t
    · rw [Prod.mk.injEq] at h1h h2h
      rw [h1h.2, h2h.2]
    · exfalso
      apply hnd.1
      rw [Prod.mk.injEq] at h1h
      rw [← h1h.1]
      exact List.mem_map_of_mem Prod.fst h2t
    · exfalso
      apply hnd.1
      rw [Prod.mk.injEq] at h2h
      rw [← h2h.1]
      exact List.mem_map_of_mem Prod.fst h1t
    · exact ih hnd.2 h1t h2t

/-! ### The claims -/

/-- C1 (counterexample): for the conflicted local target
`Conflict([], [1, 2])` and proposed commit `3`, only one competing head
(`1`) is an ancestor of `3`, yet `is_fast_forward` returns `true` — a
single ancestor head suffices, contradicting the claim's "every". -/
theorem conflict_one_head_suffices :
    conflictRepo.view.get_local_branch "b" = some (.Conflict [] [1, 2]) ∧
    is_fast_forward conflictRepo "b" 3 = true ∧
    ¬ (∀ a ∈ [1, 2], conflictRepo.isAncestor a 3 = true) := by
  refine ⟨by decide, by decide, ?_⟩
  intro h
  have := h 2 (by decide)
  simp [conflictRepo] at this

/-- C1 (amended): for a conflicted local target `Conflict(adds, removes)`,
`is_fast_forward` returns `true` iff **at least one** element of `adds` is
an ancestor of the proposed commit. -/
theorem is_fast_forward_conflict_iff_any (repo : Repo) (n : BranchName)
    (removes adds : List CommitId) (p : CommitId)
    (h : repo.view.get_local_branch n = some (.Conflict removes adds)) :
    is_fast_forward repo n p = true ↔ ∃ a ∈ adds, repo.isAncestor a p = true := by
  unfold is_fast_forward
  rw [h]
  simp [RefTarget.adds, List.any_eq_true]

/-- Witness for C1's amended theorem at the concrete conflicted repo. -/
theorem is_fast_forward_conflict_iff_any_witness :
    is_fast_forward conflictRepo "b" 3 = true ↔
      ∃ a ∈ [1, 2], conflictRepo.isAncestor a 3 = true :=
  is_fast_forward_conflict_iff_any conflictRepo "b" [] [1, 2] 3 (by decide)

/-- C5: `is_fast_forward` is trivially true for an absent local target;
for a `Normal` (spec: `Single`) target it is true iff the current commit
is an ancestor of the proposed one; in particular it holds at
`proposed = current` whenever the ancestry index is reflexive there. -/
theorem is_fast_forward_single_spec (repo : Repo) (n : BranchName)
    (c p : CommitId) :
    (repo.view.get_local_branch n = none → is_fast_forward repo n p = true) ∧
    (repo.view.get_local_branch n = some (.Normal c) →
      (is_fast_forward repo n p = true ↔ repo.isAncestor c p = true)) ∧
    (repo.view.get_local_branch n = some (.Normal c) →
      repo.isAncestor c c = true → is_fast_forward repo n c = true) := by
  refine ⟨?_, ?_, ?_⟩
  · intro h
    unfold is_fast_forward
    rw [h]
  · intro h
    unfold is_fast_forward
    rw [h]
    simp [RefTarget.adds]
  · intro h hrefl
    unfold is_fast_forward
    rw [h]
    simp [RefTarget.adds, hrefl]

/-- Witness for C5 at the total-order index: `ghost` does not exist,
`main` is at `3` with `3 ≤ 5`, and the degenerate update `3 → 3`. -/
theorem is_fast_forward_single_spec_witness :
    is_fast_forward leRepo "ghost" 7 = true ∧
    (is_fast_forward leRepo "main" 5 = true ↔ leRepo.isAncestor 3 5 = true) ∧
    is_fast_forward leRepo "main" 3 = true :=
  ⟨(is_fast_forward_single_spec leRepo "ghost" 3 7).1 (by decide),
   (is_fast_forward_single_spec leRepo "main" 3 5).2.1 (by decide),
   (is_fast_forward_single_spec leRepo "main" 3 3).2.2 (by decide) (by decide)⟩

/-- C3 (counterexample): `Create` with the duplicated fresh name `a`
succeeds — the collision check consults only the pre-operation view, so
the second occurrence raises no `NameCollision`. -/
theorem create_duplicate_fresh_name_succeeds :
    cmd_create ⟨[]⟩ ["a", "a"] 1 = .ok ⟨[("a", ⟨some (.Normal 1), []⟩)]⟩ := rfl

/-- C3 (amended): a `Create` invocation all of whose listed names (however
often repeated) lack a pre-existing local target succeeds with no
`NameCollision`, and commits every listed name's local target as
`Normal(commit)`. -/
theorem cmd_create_fresh_succeeds (view : View) (names : List BranchName)
    (c : CommitId) (h : ∀ n ∈ names, view.get_local_branch n = none) :
    ∃ v', cmd_create view names c = .ok v' ∧
      ∀ n ∈ names, v'.get_local_branch n = some (.Normal c) := by
  have hf : names.find? (fun n => (view.get_local_branch n).isSome) = none := by
    rw [List.find?_eq_none]
    intro a ha
    simp [h a ha]
  refine ⟨names.foldl (fun v n => v.set_local_branch n (.Normal c)) view, ?_, ?_⟩
  · unfold cmd_create
    rw [hf]
  · intro n hn
    rw [get_local_branch_foldl_set]
    simp [hn]

/-- Witness for C3's amended theorem on the duplicated-name call. -/
theorem cmd_create_fresh_succeeds_witness :
    ∃ v', cmd_create ⟨[]⟩ ["a", "a"] 1 = .ok v' ∧
      ∀ n ∈ ["a", "a"], v'.get_local_branch n = some (.Normal 1) :=
  cmd_create_fresh_succeeds ⟨[]⟩ ["a", "a"] 1 (by decide)

/-- C4: a batch `Set` without the override aborts with `NonFastForward`
when any named branch fails the fast-forward predicate; no view is ever
produced, so every branch (including those that would individually
fast-forward) is left unchanged. -/
theorem cmd_set_batch_aborts (repo : Repo) (names : List BranchName) (c : CommitId)
    (h : ∃ n ∈ names, is_fast_forward repo n c = false) :
    cmd_set repo false names c = .error .NonFastForward ∧
    ∀ v', cmd_set repo false names c ≠ .ok v' := by
  obtain ⟨n, hn, hff⟩ := h
  have hall : names.all (fun b => is_fast_forward repo b c) = false := by
    rw [List.all_eq_false]
    exact ⟨n, hn, by simp [hff]⟩
  have hres : cmd_set repo false names c = .error .NonFastForward := by
    unfold cmd_set
    simp [hall]
  exact ⟨hres, fun v' hv => by rw [hres] at hv; exact Except.noConfusion hv⟩

/-- Witness for C4: `b1` would fast-forward to `5` but `b2` would not, and
the whole batch is refused. -/
theorem cmd_set_batch_aborts_witness :
    cmd_set setRepo false ["b1", "b2"] 5 = .error .NonFastForward ∧
    ∀ v', cmd_set setRepo false ["b1", "b2"] 5 ≠ .ok v' :=
  cmd_set_batch_aborts setRepo ["b1", "b2"] 5 ⟨"b2", by decide, by decide⟩

/-- C9: `Set` on a name with no local target never fails the fast-forward
check even without `allow_backwards`; it succeeds and silently creates the
branch, pointing it at `Normal(commit)`. -/
theorem cmd_set_creates_missing_branch (repo : Repo) (n : BranchName) (c : CommitId)
    (h : repo.view.get_local_branch n = none) :
    is_fast_forward repo n c = true ∧
    ∃ v', cmd_set repo false [n] c = .ok v' ∧
      v'.get_local_branch n = some (.Normal c) := by
  have hff : is_fast_forward repo n c = true := by
    unfold is_fast_forward
    rw [h]
  refine ⟨hff, [n].foldl (fun v m => v.set_local_branch m (.Normal c)) repo.view, ?_, ?_⟩
  · unfold cmd_set
    simp [hff]
  · rw [List.foldl_cons, List.foldl_nil, get_local_branch_set]
    simp

/-- Witness for C9: setting the nonexistent branch `new` in the empty
repository succeeds. -/
theorem cmd_set_creates_missing_branch_witness :
    is_fast_forward emptyRepo "new" 4 = true ∧
    ∃ v', cmd_set emptyRepo false ["new"] 4 = .ok v' ∧
      v'.get_local_branch "new" = some (.Normal 4) :=
  cmd_set_creates_missing_branch emptyRepo "new" 4 (by decide)

/-- C6: `Delete` fails (with `UnknownBranch` naming an offending branch)
exactly when some listed name has no local target — a remote-only branch
counts as unknown; on success it clears exactly the listed names' local
targets and leaves every remote target of every branch unchanged (for a
view with unique branch names, the spec's Branch View invariant). -/
theorem cmd_delete_spec (view : View) (names : List BranchName)
    (hnd : (view.branches.map Prod.fst).Nodup) :
    (∀ e, cmd_delete view names = .error e →
        ∃ n ∈ names, e = .UnknownBranch n ∧ view.get_local_branch n = none) ∧
    ((∃ n ∈ names, view.get_local_branch n = none) →
        ∃ e, cmd_delete view names = .error e) ∧
    (∀ v', cmd_delete view names = .ok v' →
        (∀ m, v'.get_local_branch m =
            if m ∈ names then none else view.get_local_branch m) ∧
        (∀ m r, v'.get_remote_target m r = view.get_remote_target m r)) := by
  unfold cmd_delete validate_branch_names_exist
  cases hf : names.find? (fun n => (view.get_local_branch n).isNone) with
  | some n =>
    have hmem : n ∈ names := List.mem_of_find?_eq_some hf
    have hnone : view.get_local_branch n = none := by
      have := List.find?_some hf
      simpa [Option.isNone_iff_eq_none] using this
    refine ⟨?_, ?_, ?_⟩
    · intro e he
      simp only at he
      cases he
      exact ⟨n, hmem, rfl, hnone⟩
    · intro _
      exact ⟨.UnknownBranch n, rfl⟩
    · intro v' hv
      simp at hv
  | none =>
    refine ⟨?_, ?_, ?_⟩
    · intro e he
      simp at he
    · intro hex
      obtain ⟨n, hn, hnone⟩ := hex
      rw [List.find?_eq_none] at hf
      have := hf n hn
      simp [hnone] at this
    · intro v' hv
      simp only [Except.ok.injEq] at hv
      subst hv
      constructor
      · intro m
        exact get_local_branch_foldl_remove_local names view m
      · intro m r
        exact get_remote_target_foldl_remove_local names view hnd m r

/-- Witness for C6: deleting the remote-only branch `y` fails. -/
theorem cmd_delete_spec_witness :
    ∃ e, cmd_delete delView ["y"] = .error e :=
  (cmd_delete_spec delView ["y"] (by decide)).2.1 ⟨"y", by decide, by decide⟩

/-- C7: `find_globs` returns exactly the branch names in the view matched
by some glob; when the explicit names all exist, `Forget` succeeds and
discards exactly the Branch Records of the deduplicated union of explicit
names and glob matches — local and remote targets alike — leaving every
other record untouched. -/
theorem cmd_forget_spec (view : View) (names : List BranchName)
    (globs : List String) :
    (∀ m, m ∈ find_globs view globs ↔
        (∃ bt, (m, bt) ∈ view.branches) ∧
          ∃ g ∈ globs, globMatch g.toList m.toList = true) ∧
    ((∀ n ∈ names, view.get_local_branch n ≠ none) →
      ∃ v', cmd_forget view names globs = .ok v' ∧
        ∀ m, v'.lookupRecord m =
          if m ∈ names ∨ m ∈ find_globs view globs then none
          else view.lookupRecord m) := by
  constructor
  · intro m
    unfold find_globs
    simp only [List.mem_map, List.mem_filter, List.any_eq_true]
    constructor
    · rintro ⟨p, ⟨hp, hg⟩, rfl⟩
      exact ⟨⟨p.2, hp⟩, hg⟩
    · rintro ⟨⟨bt, hbt⟩, g, hg, hm⟩
      exact ⟨(m, bt), ⟨hbt, ⟨g, hg, hm⟩⟩, rfl⟩
  · intro h
    have hf : names.find? (fun n => (view.get_local_branch n).isNone) = none := by
      rw [List.find?_eq_none]
      intro a ha
      simp [Option.isNone_iff_eq_none]
      exact h a ha
    refine ⟨((names ++ find_globs view globs).dedup).foldl
        (fun v n => v.remove_branch n) view, ?_, ?_⟩
    · unfold cmd_forget validate_branch_names_exist
      rw [hf]
    · intro m
      rw [lookupRecord_foldl_remove_branch]
      by_cases hm : m ∈ names ∨ m ∈ find_globs view globs
      · have : m ∈ (names ++ find_globs view globs).dedup := by
          rw [List.mem_dedup, List.mem_append]
          exact hm
        simp [this, hm]
      · have : m ∉ (names ++ find_globs view globs).dedup := by
          rw [List.mem_dedup, List.mem_append]
          exact hm
        simp [this, hm]

/-- Witness for C7: the spec's example — forgetting by glob `feature-*`
over `{feature-a, feature-b, main}`. -/
theorem cmd_forget_spec_witness :
    ∃ v', cmd_forget featureView [] ["feature-*"] = .ok v' ∧
      ∀ m, v'.lookupRecord m =
        if m ∈ ([] : List BranchName) ∨ m ∈ find_globs featureView ["feature-*"]
        then none else featureView.lookupRecord m :=
  (cmd_forget_spec featureView [] ["feature-*"]).2 (by simp)

/-- C10: a branch with remote targets but no local target is in scope for
glob matching (which ranges over all Branch View entries) and can be
forgotten through a glob, while passing the same name explicitly fails
with the unknown-branch error — the existence check covers only the
explicit names. -/
theorem cmd_forget_glob_vs_explicit (view : View) (n : BranchName) (g : String)
    (bt : BranchTarget) (globs' : List String)
    (hbt : (n, bt) ∈ view.branches)
    (hn : view.get_local_branch n = none)
    (hg : globMatch g.toList n.toList = true) :
    n ∈ find_globs view [g] ∧
    (∃ v', cmd_forget view [] [g] = .ok v' ∧ v'.lookupRecord n = none) ∧
    cmd_forget view [n] globs' = .error (.UnknownBranch n) := by
  have hmem : n ∈ find_globs view [g] := by
    unfold find_globs
    rw [List.mem_map]
    refine ⟨(n, bt), ?_, rfl⟩
    rw [List.mem_filter]
    exact ⟨hbt, by simpa using hg⟩
  refine ⟨hmem, ?_, ?_⟩
  · refine ⟨(([] ++ find_globs view [g]).dedup).foldl
        (fun v m => v.remove_branch m) view, ?_, ?_⟩
    · unfold cmd_forget validate_branch_names_exist
      rfl
    · rw [lookupRecord_foldl_remove_branch]
      simp [hmem]
  · unfold cmd_forget validate_branch_names_exist
    have : ([n].find? fun m => (view.get_local_branch m).isNone) = some n := by
      simp [List.find?, hn]
    rw [this]

/-- Witness for C10 at the remote-only branch `ro` and glob `r*`. -/
theorem cmd_forget_glob_vs_explicit_witness :
    "ro" ∈ find_globs remoteOnlyView ["r*"] ∧
    (∃ v', cmd_forget remoteOnlyView [] ["r*"] = .ok v' ∧
      v'.lookupRecord "ro" = none) ∧
    cmd_forget remoteOnlyView ["ro"] [] = .error (.UnknownBranch "ro") :=
  cmd_forget_glob_vs_explicit remoteOnlyView "ro" "r*"
    ⟨none, [("origin", .Normal 7)]⟩ [] (by decide) (by decide) (by simp [globMatch])

/-- C8: a remote whose stored target is structurally equal to the branch's
local target contributes no events at all to the List output — no remote
line and no reachability query (view and record keys unique, per the
spec's mapping invariants). -/
theorem list_branches_suppresses_equal_remote (repo : ListRepo) (name : BranchName)
    (bt : BranchTarget) (remote : RemoteName) (rt : RefTarget)
    (hnd : (repo.view.branches.map Prod.fst).Nodup)
    (hrnd : (bt.remote_targets.map Prod.fst).Nodup)
    (hbt : (name, bt) ∈ repo.view.branches)
    (hrt : (remote, rt) ∈ bt.remote_targets)
    (heq : some rt = bt.local_target) :
    remoteEvents repo.walkRevsCount name bt.local_target remote rt = [] ∧
    ∀ info t, ListEvent.remoteLine name remote info t ∉ list_branches repo := by
  constructor
  · unfold remoteEvents
    rw [if_pos heq]
  · intro info t hmem
    unfold list_branches at hmem
    rw [List.mem_flatMap] at hmem
    obtain ⟨p, hp, hin⟩ := hmem
    unfold branchEvents at hin
    rcases List.mem_cons.mp hin with h | h
    · exact ListEvent.noConfusion h
    · rw [List.mem_flatMap] at h
      obtain ⟨q, hq, hin2⟩ := h
      obtain ⟨hn, hr, ht, hne, _⟩ :=
        remoteLine_mem_remoteEvents repo.walkRevsCount p.1 p.2.local_target q.1 q.2
          name remote info t hin2
      have hq' : q ∈ p.2.remote_targets :=
        (List.mergeSort_perm p.2.remote_targets _).mem_iff.mp hq
      have hp' : (name, p.2) ∈ repo.view.branches := by
        rw [hn]
        simpa using hp
      have hbt2 : bt = p.2 := assoc_key_unique _ hnd name bt p.2 hbt hp'
      have hq2 : (remote, q.2) ∈ bt.remote_targets := by
        rw [hbt2, hr]
        simpa using hq'
      have hrt2 : rt = q.2 := assoc_key_unique _ hrnd remote rt q.2 hrt hq2
      apply hne
      rw [← hrt2, heq, hbt2]

/-- Witness for C8 at a branch whose remote mirrors the local target. -/
theorem list_branches_suppresses_equal_remote_witness :
    remoteEvents equalRemoteRepo.walkRevsCount "b"
        (some (RefTarget.Normal 1)) "origin" (.Normal 1) = [] ∧
    ∀ info t, ListEvent.remoteLine "b" "origin" info t ∉ list_branches equalRemoteRepo :=
  list_branches_suppresses_equal_remote equalRemoteRepo "b"
    ⟨some (.Normal 1), [("origin", .Normal 1)]⟩ "origin" (.Normal 1)
    (by decide) (by decide) (by decide) (by decide) (by decide)

/-- C2 (counterexample): `b` is locally at `1`, `b@origin` at `2`, and the
index reports one commit reachable from the remote head but none from the
local head; List prints "(ahead by 1 commits)", yet the number of commits
reachable from the local target's adds but not the remote's is `0`, not
`1` — the claim has the two sides swapped. -/
theorem list_ahead_count_swapped :
    ListEvent.remoteLine "b" "origin" (.ahead 1) (.Normal 2) ∈ list_branches divergeRepo ∧
    divergeRepo.walkRevsCount (RefTarget.Normal 1).adds (RefTarget.Normal 2).adds ≠ 1 := by
  constructor
  · simp [list_branches, divergeRepo, branchEvents, remoteEvents, remoteInfoCalc,
      RefTarget.adds, List.mergeSort]
  · decide

/-- C2 (amended): every remote line printed by List belongs to a view
entry whose remote target differs from the local target, and its counts
mean: "ahead by N" is the number of commits reachable from the **remote**
target's adds but not the local's, "behind by N" the converse; a side is
printed only when nonzero, and both are printed when both are nonzero. -/
theorem list_branches_remote_counts (repo : ListRepo) (name : BranchName)
    (remote : RemoteName) (info : AheadBehind) (rt : RefTarget)
    (h : ListEvent.remoteLine name remote info rt ∈ list_branches repo) :
    ∃ bt, (name, bt) ∈ repo.view.branches ∧ (remote, rt) ∈ bt.remote_targets ∧
      some rt ≠ bt.local_target ∧
      ((bt.local_target = none ∧ info = .nothing) ∨
       (∃ lt, bt.local_target = some lt ∧
         (∀ k, info = .ahead k →
            k = repo.walkRevsCount rt.adds lt.adds ∧ k ≠ 0 ∧
              repo.walkRevsCount lt.adds rt.adds = 0) ∧
         (∀ k, info = .behind k →
            k = repo.walkRevsCount lt.adds rt.adds ∧ k ≠ 0 ∧
              repo.walkRevsCount rt.adds lt.adds = 0) ∧
         (∀ a b, info = .aheadBehind a b →
            a = repo.walkRevsCount rt.adds lt.adds ∧ a ≠ 0 ∧
              b = repo.walkRevsCount lt.adds rt.adds ∧ b ≠ 0) ∧
         (info = .nothing →
            repo.walkRevsCount rt.adds lt.adds = 0 ∧
              repo.walkRevsCount lt.adds rt.adds = 0))) := by
  unfold list_branches at h
  rw [List.mem_flatMap] at h
  obtain ⟨p, hp, hin⟩ := h
  unfold branchEvents at hin
  rcases List.mem_cons.mp hin with h | h
  · exact ListEvent.noConfusion h
  · rw [List.mem_flatMap] at h
    obtain ⟨q, hq, hin2⟩ := h
    obtain ⟨hn, hr, ht, hne, hcase⟩ :=
      remoteLine_mem_remoteEvents repo.walkRevsCount p.1 p.2.local_target q.1 q.2
        name remote info rt hin2
    have hq' : q ∈ p.2.remote_targets :=
      (List.mergeSort_perm p.2.remote_targets _).mem_iff.mp hq
    subst ht
    refine ⟨p.2, ?_, ?_, hne, ?_⟩
    · rw [hn]
      simpa using hp
    · rw [hr]
      simpa using hq'
    · rcases hcase with ⟨hnone, hinfo⟩ | ⟨l0, hsome, hinfo⟩
      · exact Or.inl ⟨hnone, hinfo⟩
      · subst hinfo
        obtain ⟨s1, s2, s3, s4⟩ := remoteInfoCalc_spec repo.walkRevsCount l0 q.2
        exact Or.inr ⟨l0, hsome, s1, s2, s3, s4⟩

/-- Witness for C2's amended theorem at the diverged repo: the printed
"(ahead by 1)" line is characterized by the index's counts. -/
theorem list_branches_remote_counts_witness :
    ∃ bt, ("b", bt) ∈ divergeRepo.view.branches ∧
      ("origin", RefTarget.Normal 2) ∈ bt.remote_targets ∧
      some (RefTarget.Normal 2) ≠ bt.local_target ∧
      ((bt.local_target = none ∧ AheadBehind.ahead 1 = .nothing) ∨
       (∃ lt, bt.local_target = some lt ∧
         (∀ k, AheadBehind.ahead 1 = .ahead k →
            k = divergeRepo.walkRevsCount (RefTarget.Normal 2).adds lt.adds ∧ k ≠ 0 ∧
              divergeRepo.walkRevsCount lt.adds (RefTarget.Normal 2).adds = 0) ∧
         (∀ k, AheadBehind.ahead 1 = .behind k →
            k = divergeRepo.walkRevsCount lt.adds (RefTarget.Normal 2).adds ∧ k ≠ 0 ∧
              divergeRepo.walkRevsCount (RefTarget.Normal 2).adds lt.adds = 0) ∧
         (∀ a b, AheadBehind.ahead 1 = .aheadBehind a b →
            a = divergeRepo.walkRevsCount (RefTarget.Normal 2).adds lt.adds ∧ a ≠ 0 ∧
              b = divergeRepo.walkRevsCount lt.adds (RefTarget.Normal 2).adds ∧ b ≠ 0) ∧
         (AheadBehind.ahead 1 = .nothing →
            divergeRepo.walkRevsCount (RefTarget.Normal 2).adds lt.adds = 0 ∧
              divergeRepo.walkRevsCount lt.adds (RefTarget.Normal 2).adds = 0))) :=
  list_branches_remote_counts divergeRepo "b" "origin" (.ahead 1) (.Normal 2)
    (by simp [list_branches, divergeRepo, branchEvents, remoteEvents, remoteInfoCalc,
      RefTarget.adds, List.mergeSort])
